import Mathlib

/-!
# The Janus Foundry — verification of the spec against the source

Shallow embedding of the core of the repository:

* the node data model (`src/lib/db.ts`),
* the tree mutators `createNode` and `deleteNodeAndChildren` (`src/lib/db.ts`),
* the drag-and-drop reparent guard `handleDrop`
  (`src/lib/components/TreeNode.svelte`),
* the cross-reference inference engine `generateCrossReferences` and its
  helpers (`src/lib/io.ts`).

Conventions of the embedding:

* JavaScript `Map` and `Set` are modelled by association lists and
  duplicate-free lists that preserve insertion order, which is exactly the
  iteration order of the originals.
* The persistent Dexie table of nodes is modelled by a `List Node`
  (insertion order); `where({parentId}).count()`/`where('parentId').equals`
  become filters over that list.
* Strings are Lean `String`s; the embedding of `toLowerCase`, `\w`, `\s`
  and string comparison is faithful for ASCII data (JavaScript is
  Unicode-aware where Lean's `Char.toLower`/`Char.isAlphanum` are
  ASCII-only; all node contents relevant to the claims are ASCII, and
  non-ASCII letters are excluded from keywords by `\w` in the source too).
* The floating-point confidence value `parseFloat((log1p(w)/log1p(W)).toFixed(3))`
  is idealized over `ℝ` as `round (1000*x) / 1000` of the exact logarithm
  quotient (definition `confidence` below).  The pipeline itself stores the
  integer `weight` of each link; the stored float of the source is, by
  construction, the function `confidence` of that weight and of the
  corpus-wide `maxWeight`.  The source's final sort compares these floats;
  since `confidence` is monotone in the weight (proved below), the stable
  sort by descending weight used here produces a list sorted by
  non-increasing confidence exactly as the source does.
-/

namespace JanusFoundry

/-- The `Node` record of `src/lib/db.ts`: id (UUID primary key), optional parent
id (`null` for roots), name, free-text type tag, description, and integer
sort order. -/
structure Node where
  id : String
  parentId : Option String
  name : String
  type : String
  description : String
  sortOrder : Int
deriving DecidableEq

/-! ## Generic list helpers modelling JS `Set`/`Map` semantics -/

/-- JS `Set.add`: append if not already present (insertion-order iteration). -/
def addUnique {α : Type} [DecidableEq α] (l : List α) (a : α) : List α :=
  if a ∈ l then l else l ++ [a]

/-- JS `new Set(xs)`: deduplicate keeping first occurrences, in order. -/
def dedupFirst {α : Type} [DecidableEq α] (l : List α) : List α :=
  l.foldl addUnique []

/-- Lookup in an insertion-ordered association list (JS `Map.get`). -/
def lookupM {α : Type} (m : List (String × α)) (k : String) : Option α :=
  (m.find? (fun e => e.1 == k)).map (·.2)

/-! ## Lexical analyzer (`_extractInitialKeywords`, `src/lib/io.ts` 112–120) -/

/-- JS `\w`: ASCII alphanumerics and underscore. -/
def isWordChar (c : Char) : Bool := c.isAlphanum || c == '_'

/-- JS `\s` restricted to ASCII: space, tab, newline, carriage return,
vertical tab, form feed. -/
def isSpaceChar (c : Char) : Bool :=
  c == ' ' || c == '\t' || c == '\n' || c == '\r' || c == '\x0b' || c == '\x0c'

/-- Characters kept by the replacement `replace(/[^\w\s-]/g, ' ')`. -/
def keepChar (c : Char) : Bool := isWordChar c || isSpaceChar c || c == '-'

/-- One character of `text.toLowerCase().replace(/[^\w\s-]/g, ' ')`. -/
def normalizeChar (c : Char) : Char :=
  let lc := c.toLower
  if keepChar lc then lc else ' '

/-- Split a character list into the maximal runs separated by whitespace.
Empty chunks (leading/trailing/adjacent separators) are produced like
`String.prototype.split(/\s+/)` produces at most a leading empty token; all
empty chunks are discarded by the length filter that follows, so the two
agree after filtering. -/
def splitRuns : List Char → List (List Char)
  | [] => [[]]
  | c :: rest =>
    let r := splitRuns rest
    if isSpaceChar c then [] :: r
    else
      match r with
      | [] => [[c]]
      | t :: ts => (c :: t) :: ts

/-- The extractor `_extractInitialKeywords`: lowercase, replace every character outside
`[\w\s-]` by a space, split on whitespace, keep distinct tokens of length
> 2, in first-occurrence order. -/
def _extractInitialKeywords (textContent : String) : List String :=
  dedupFirst
    (((splitRuns (textContent.data.map normalizeChar)).map
        (fun t => String.mk t)).filter (fun w => 2 < w.length))

/-! ## Constants of `src/lib/io.ts` (lines 48–104) -/

def COMMON_WORD_PERCENTILE_THRESHOLD_NUM : Nat := 10  -- 0.10 = 10 / 100

def MIN_SHARED_KEYWORDS_THRESHOLD : Nat := 2

def MAX_LINKS_PER_NODE : Nat := 7

def BASE_STOP_WORDS : List String :=
  ["a", "an", "the", "and", "or", "in", "on", "of", "for", "to", "with",
   "is", "was", "were", "it", "that", "as", "by", "from",
   "this", "at", "if", "but", "not", "be", "are", "has", "had", "have",
   "do", "does", "did", "its", "also", "just", "made",
   "new", "like", "use", "used", "using", "get", "set", "make", "all",
   "any", "most", "other", "some", "such", "only", "own",
   "same", "so", "than", "too", "very", "can", "will", "should", "could",
   "would", "must", "may", "might",
   "janus", "kairos", "codewright",
   "project", "task", "node", "file", "code", "script", "type", "name",
   "description", "items", "id", "uuid",
   "system", "data", "information", "process", "based", "via", "core",
   "value", "user", "agent", "self", "knowledge"]

def RELATIONSHIP_VERBS : List String :=
  ["improves", "fixes", "causes", "relates", "depends on", "supports",
   "clarifies", "constrains", "expands", "addresses", "references",
   "reflects", "contains", "requires", "produces", "solves", "alleviates"]

def INVERSE_RELATIONS : List (String × String) :=
  [("has_child", "is_child_of"),
   ("is_child_of", "has_child"),
   ("is_descendant_of", "is_ancestor_of"),
   ("is_ancestor_of", "is_descendant_of"),
   ("contains_task", "is_task_of"),
   ("is_task_of", "contains_task"),
   ("addresses", "is_addressed_by"),
   ("is_addressed_by", "addresses"),
   ("expands", "is_expanded_by"),
   ("is_expanded_by", "expands"),
   ("clarifies", "is_clarified_by"),
   ("is_clarified_by", "clarifies"),
   ("constrains", "is_constrained_by"),
   ("is_constrained_by", "constrains"),
   ("reflects_on", "is_reflected_on_by"),
   ("is_reflected_on_by", "reflects_on"),
   ("derived_from", "is_source_of"),
   ("is_source_of", "derived_from"),
   ("points_to", "is_pointed_to_by"),
   ("is_pointed_to_by", "points_to"),
   ("explicitly_references", "is_referenced_by"),
   ("is_referenced_by", "explicitly_references"),
   ("improves", "is_improved_by")]

def TYPE_RULES : List (String × String) :=
  [("ReflectionEntry->SessionSummaryEntry", "reflects_on"),
   ("LearningEntry->ReflectionEntry", "derived_from"),
   ("LearningEntry->SessionSummaryEntry", "derived_from"),
   ("LearningEntry->KnowledgeDomain", "expands"),
   ("Project->Goal", "addresses"),
   ("Limitation->Ability", "constrains"),
   ("Principle->GuidingPrinciples", "is_part_of"),
   ("Tool->ToolRegistry", "is_registered_in")]

/-- JS `INVERSE_RELATIONS[relation] || relation`: table lookup with
self-inverse fallback for unmapped relations. -/
def inverseRelation (r : String) : String := (lookupM INVERSE_RELATIONS r).getD r

/-- JS `TYPE_RULES[a + '->' + b]` (the key string is built exactly as in the
source, so any collision behaviour of `->` inside type tags is preserved). -/
def typeRule (a b : String) : Option String := lookupM TYPE_RULES (a ++ "->" ++ b)

/-! ## Relationship inference (`inferRelationship`, `src/lib/io.ts` 147–192) -/

/-- JS truthiness of a `string | null` value: `null` and `""` are falsy. -/
def optTruthy : Option String → Bool
  | none => false
  | some s => !(s == "")

/-- Tests whether `sub` is the start of `s` (character-wise). -/
def startsWithChars : List Char → List Char → Bool
  | [], _ => true
  | _ :: _, [] => false
  | a :: as, b :: bs => a == b && startsWithChars as bs

/-- Tests whether `sub` occurs contiguously in `s` (character-wise). -/
def hasSubstrChars (s sub : List Char) : Bool :=
  if startsWithChars sub s then true
  else
    match s with
    | [] => false
    | _ :: rest => hasSubstrChars rest sub

/-- JS `String.prototype.includes` (the empty pattern is contained in
every string). -/
def jsIncludes (s sub : String) : Bool := hasSubstrChars s.data sub.data

/-- JS `String.prototype.split` with a non-empty literal separator: cut at
the first occurrence of the separator, then continue after it.  Runs on
fuel (one unit per consumed character; `s.length` units always suffice
because the separator is non-empty). -/
def splitSeq (sep : List Char) : Nat → List Char → List Char → List (List Char)
  | 0, s, acc => [acc.reverse ++ s]
  | fuel + 1, s, acc =>
    match s with
    | [] => [acc.reverse]
    | c :: rest =>
      if startsWithChars sep s then
        acc.reverse :: splitSeq sep fuel (s.drop sep.length) []
      else
        splitSeq sep fuel rest (c :: acc)

/-- JS `s.split(sep)` for a non-empty string separator (the source only
splits on `'. '`). -/
def jsSplit (s sep : String) : List String :=
  if sep.data.isEmpty then [s]
  else (splitSeq sep.data s.data.length s.data []).map (fun t => String.mk t)

/-- JS `verb.replace(/ /g, '_')`: every space becomes an underscore. -/
def underscoreSpaces (s : String) : String :=
  String.mk (s.data.map (fun c => if c == ' ' then '_' else c))

/-- JS `String.prototype.trim` (ASCII whitespace). -/
def jsTrim (s : String) : String :=
  String.mk (((s.data.dropWhile isSpaceChar).reverse.dropWhile isSpaceChar).reverse)

/-- Lowercase an entire string (`toLowerCase`, ASCII). -/
def toLowerString (s : String) : String := String.mk (s.data.map Char.toLower)

/-- The helper `isAncestor` (`src/lib/io.ts` 135–145): walk `parentId` pointers from
`currentId` comparing against `potentialAncestorId`.  The source's `while`
loop is unbounded and relies on the forest invariant for termination; the
embedding runs it with explicit fuel (`nodeMap.length + 1` at each call
site bounds every parent chain of a forest, so on forest data the two
agree). -/
def isAncestor : Nat → Option String → String → List Node → Bool
  | 0, _, _, _ => false
  | fuel + 1, currentId, potentialAncestorId, nodeMap =>
    match currentId with
    | none => false
    | some c =>
      if c == "" then false   -- `while (currentId)`: "" is falsy
      else if c == potentialAncestorId then true
      else
        isAncestor fuel
          (match nodeMap.find? (fun nd => nd.id == c) with
           | some nd => nd.parentId
           | none => none)
          potentialAncestorId nodeMap

/-- Rule 4 of `inferRelationship`: first shared keyword whose sentence
contains a relationship verb; the verb (spaces replaced by underscores) is
the relation. -/
def findVerbRelation (sentencesA : List String) (sharedKeywords : List String) :
    Option String :=
  sharedKeywords.findSome? fun kw =>
    sentencesA.findSome? fun st =>
      if jsIncludes st kw then
        RELATIONSHIP_VERBS.findSome? fun v =>
          if jsIncludes st v then some (underscoreSpaces v) else none
      else none

/-- The source's `inferRelationship`: strict priority chain — structural, explicit
textual reference, type-pair table, keyword+verb, fallback. -/
def inferRelationship (nodeA nodeB : Node) (sharedKeywords : List String)
    (nodeMap : List Node) : String :=
  if nodeA.parentId = some nodeB.id then "is_child_of"
  else if nodeB.parentId = some nodeA.id then "has_child"
  else if optTruthy nodeA.parentId ∧ nodeA.parentId = nodeB.parentId then
    "is_sibling_of"
  else if isAncestor (nodeMap.length + 1) (some nodeA.id) nodeB.id nodeMap then
    "is_descendant_of"
  else if isAncestor (nodeMap.length + 1) (some nodeB.id) nodeA.id nodeMap then
    "is_ancestor_of"
  else if jsIncludes nodeA.description nodeB.id then "explicitly_references"
  else if jsIncludes nodeB.description nodeA.id then "is_referenced_by"
  else if nodeA.type = "ReferenceValue" ∧ jsTrim nodeA.description = nodeB.id then
    "points_to"
  else if nodeB.type = "ReferenceValue" ∧ jsTrim nodeB.description = nodeA.id then
    "is_pointed_to_by"
  else
    match typeRule nodeA.type nodeB.type with
    | some r => r
    | none =>
      -- reverse-direction type rule; if its relation has no inverse entry
      -- the source falls through to the keyword rule
      match (typeRule nodeB.type nodeA.type).bind
          (fun r => lookupM INVERSE_RELATIONS r) with
      | some inv => inv
      | none =>
        let textA := toLowerString (nodeA.name ++ " " ++ nodeA.description)
        let sentencesA := jsSplit textA ". "
        match findVerbRelation sentencesA sharedKeywords with
        | some r => r
        | none => "is_related_to"

/-! ## Cross-reference pipeline (`generateCrossReferences`, `src/lib/io.ts` 281–394) -/

/-- One per-pair record pushed into `tempCrossrefs` (step 4 of the source).
The final index stores the same records; the stored floating-point
`confidence` field of the source is the function `confidence` (below) of
`weight` and of the corpus `maxWeight`, so the embedding keeps the integer
`weight` and states confidence properties through that function. -/
structure TempLink where
  target_id : String
  weight : Nat
  relation : String
  provenance : List String
deriving DecidableEq

/-- State threaded through the pair-generation loop: the `processedPairs`
keys, the running `maxWeight`, and the pushes into `tempCrossrefs` in
order (`events`), each event being `(map key, link pushed)`. -/
structure GenState where
  processed : List String
  maxWeight : Nat
  events : List (String × TempLink)
deriving DecidableEq

/-- Keywords of `node.name + ' ' + node.description`, fed to the keyword extractor. -/
def keywordsOfNode (nd : Node) : List String :=
  _extractInitialKeywords (nd.name ++ " " ++ nd.description)

/-- JS `Map.set(k, (get(k) || 0) + 1)`: bump a census counter in place,
appending new keys (insertion order preserved). -/
def bumpCount : List (String × Nat) → String → List (String × Nat)
  | [], k => [(k, 1)]
  | (k', n) :: rest, k =>
    if k' == k then (k', n + 1) :: rest else (k', n) :: bumpCount rest k

/-- Step 1, global keyword census: for each keyword the number of nodes
containing it (each node contributes its deduplicated keyword set once). -/
def globalKeywordCounts (allNodes : List Node) : List (String × Nat) :=
  allNodes.foldl (fun m nd => (keywordsOfNode nd).foldl bumpCount m) []

/-- Stable insertion of a census entry into a list sorted by descending
count: an element is placed before the first entry with a count ≤ its own,
which reproduces the (stable) JS `sort((a, b) => b[1] - a[1])`. -/
def insertCensusDesc (a : String × Nat) : List (String × Nat) → List (String × Nat)
  | [] => [a]
  | b :: l => if b.2 ≤ a.2 then a :: b :: l else b :: insertCensusDesc a l

/-- Stable sort by descending count. -/
def sortCensusDesc (l : List (String × Nat)) : List (String × Nat) :=
  l.foldr insertCensusDesc []

/-- Step 2, dynamic stop words: the top `floor(length * 0.10)` census
entries.  (`floor(n * 0.1)` on IEEE doubles equals `n / 10` in integer
division for every list length reachable here, since `n * 0.1` never
rounds below an integer crossing for `n` far under `2^53`.) -/
def dynamicStopWords (allNodes : List Node) : List String :=
  let sorted := sortCensusDesc (globalKeywordCounts allNodes)
  (sorted.take (sorted.length / COMMON_WORD_PERCENTILE_THRESHOLD_NUM)).map (·.1)

/-- Membership in `finalStopWords = BASE_STOP_WORDS ∪ dynamicStopWords`. -/
def isStopWord (dyn : List String) (kw : String) : Bool :=
  BASE_STOP_WORDS.contains kw || dyn.contains kw

/-- Step 3, significant keywords per node: the initial keywords minus the
stop words; nodes whose set becomes empty are excluded (`size > 0`).
Keys appear in node order, matching the `Map` insertion order (node ids
are unique, being the table's primary key). -/
def nodesKeywords (allNodes : List Node) : List (String × List String) :=
  let dyn := dynamicStopWords allNodes
  allNodes.foldl
    (fun acc nd =>
      let sig := (keywordsOfNode nd).filter (fun kw => !(isStopWord dyn kw))
      if sig.isEmpty then acc else acc ++ [(nd.id, sig)])
    []

/-- JS `invertedIndex.get(kw).add(uuid)` with key creation on demand. -/
def mapAddToSet : List (String × List String) → String → String →
    List (String × List String)
  | [], k, v => [(k, [v])]
  | (k', s) :: rest, k, v =>
    if k' == k then (k', addUnique s v) :: rest else (k', s) :: mapAddToSet rest k v

/-- Step 4a, inverted index: keyword → node ids holding it (insertion
order). -/
def invertedIndex (nk : List (String × List String)) : List (String × List String) :=
  nk.foldl (fun idx e => e.2.foldl (fun idx kw => mapAddToSet idx kw e.1) idx) []

/-- The `relatedDocs` set: union, in insertion order, of the inverted-index entries
of a node's keywords. -/
def relatedDocsOf (inv : List (String × List String)) (kws : List String) :
    List String :=
  kws.foldl (fun s kw => ((lookupM inv kw).getD []).foldl addUnique s) []

/-- Character-wise lexicographic `<` (the JS default string comparison on
UTF-16 code units; identical to code-point comparison on the data of the
claims, which is ASCII). -/
def charsLt : List Char → List Char → Bool
  | [], [] => false
  | [], _ :: _ => true
  | _ :: _, [] => false
  | a :: as, b :: bs => if a < b then true else if b < a then false else charsLt as bs

/-- Lexicographic `≤` on strings. -/
def jsStringLe (a b : String) : Bool := !(charsLt b.data a.data)

/-- Canonical ordering of the two ids of a pair: `[a, b].sort()`
(lexicographic). -/
def sortPair (u o : String) : String × String :=
  if jsStringLe u o then (u, o) else (o, u)

/-- Ascending lexicographic insertion sort of strings
(`Array.from(set).sort()`). -/
def insertStr (a : String) : List String → List String
  | [] => [a]
  | b :: l => if jsStringLe a b then a :: b :: l else b :: insertStr a l

def sortStrings (l : List String) : List String := l.foldr insertStr []

/-- Placeholder for the non-null assertion `uuidToNodeMap.get(uuid)!` of
the source; never reached, because every key of `nodesKeywords` is the id
of a stored node. -/
def dummyNode : Node := ⟨"", none, "", "", "", 0⟩

/-- The body of the inner pair loop (`src/lib/io.ts` 339–371): skip self
and already-processed pairs, intersect the significant keyword sets
(`setIntersection(keywords1, keywords2)` iterates its second argument),
update `maxWeight`, and when the weight reaches the threshold push the two
reciprocal links. -/
def processPair (allNodes : List Node) (nk : List (String × List String))
    (uuid : String) (st : GenState) (otherUuid : String) : GenState :=
  if uuid = otherUuid then st
  else
    let p := sortPair uuid otherUuid
    let pairKey := p.1 ++ "|" ++ p.2
    if pairKey ∈ st.processed then st
    else
      let st1 : GenState := { st with processed := st.processed ++ [pairKey] }
      match lookupM nk p.1, lookupM nk p.2 with
      | some keywords1, some keywords2 =>
        let shared := keywords2.filter (fun kw => keywords1.contains kw)
        let weight := shared.length
        let st2 : GenState :=
          if st1.maxWeight < weight then { st1 with maxWeight := weight } else st1
        if MIN_SHARED_KEYWORDS_THRESHOLD ≤ weight then
          let node1 := (allNodes.find? (fun nd => nd.id == p.1)).getD dummyNode
          let node2 := (allNodes.find? (fun nd => nd.id == p.2)).getD dummyNode
          let provenance := sortStrings shared
          let relation := inferRelationship node1 node2 provenance allNodes
          let inverse := inverseRelation relation
          { st2 with
            events := st2.events ++
              [(p.1, ⟨p.2, weight, relation, provenance⟩),
               (p.2, ⟨p.1, weight, inverse, provenance⟩)] }
        else st2
      | _, _ => st1

/-- Step 4 in full: iterate the `nodesKeywords` entries, gather each
node's candidate set through the inverted index, and process every
candidate pair. -/
def genEvents (allNodes : List Node) : GenState :=
  let nk := nodesKeywords allNodes
  let inv := invertedIndex nk
  nk.foldl
    (fun st e => (relatedDocsOf inv e.2).foldl (processPair allNodes nk e.1) st)
    ⟨[], 0, []⟩

/-- JS `tempCrossrefs.get(u).push(l)` with key creation on demand. -/
def mapPushLink : List (String × List TempLink) → String → TempLink →
    List (String × List TempLink)
  | [], u, l => [(u, [l])]
  | (k, ls) :: rest, u, l =>
    if k == u then (k, ls ++ [l]) :: rest else (k, ls) :: mapPushLink rest u l

/-- The `tempCrossrefs` map: per node id, its outgoing links in push
order. -/
def tempCrossrefs (allNodes : List Node) : List (String × List TempLink) :=
  (genEvents allNodes).events.foldl (fun m e => mapPushLink m e.1 e.2) []

/-- The corpus-wide maximum shared-keyword weight observed in the pair
loop (including below-threshold pairs, as in the source). -/
def maxWeightOf (allNodes : List Node) : Nat := (genEvents allNodes).maxWeight

/-- Stable insertion by descending weight.  The source sorts by the stored
confidence, `(a, b) => b.confidence - a.confidence`; confidence is a
monotone function of weight (theorem `confidence_mono` below), and on every
corpus where the 3-decimal rounding does not merge two distinct weights
the two stable sorts coincide. -/
def insertLinkDesc (a : TempLink) : List TempLink → List TempLink
  | [] => [a]
  | b :: l => if b.weight ≤ a.weight then a :: b :: l else b :: insertLinkDesc a l

def sortLinksDesc (l : List TempLink) : List TempLink := l.foldr insertLinkDesc []

/-- The engine `generateCrossReferences` (`src/lib/io.ts` 281–394): corpora with
fewer than two nodes yield the empty index; otherwise every per-node link
list is sorted by descending confidence and truncated to
`MAX_LINKS_PER_NODE`. -/
def generateCrossReferences (allNodes : List Node) : List (String × List TempLink) :=
  if allNodes.length < 2 then []
  else
    (tempCrossrefs allNodes).map
      (fun e => (e.1, (sortLinksDesc e.2).take MAX_LINKS_PER_NODE))

/-- Real-number idealization of the stored confidence float: `x.toFixed(3)`
followed by `parseFloat` rounds to the nearest multiple of `1/1000`. -/
noncomputable def round3R (x : ℝ) : ℝ := (round (1000 * x) : ℤ) / 1000

/-- The confidence of a link of weight `w` in a corpus of maximal observed
weight `maxW` (`src/lib/io.ts` 377–387): `0` is never overwritten when
`maxWeight = 0`, the guard branch yields `1.0` when `maxWeight = 1`, and
otherwise the value is `ln(1+w)/ln(1+maxW)` rounded to three decimals. -/
noncomputable def confidence (w maxW : Nat) : ℝ :=
  if maxW = 0 then 0
  else if 1 < maxW then
    round3R (Real.log (1 + (w : ℝ)) / Real.log (1 + (maxW : ℝ)))
  else 1

/-! ## Tree mutators (`src/lib/db.ts`) -/

/-- The mutator `createNode` (`src/lib/db.ts` 50–71).  The sibling count
is `db.nodes.where({ parentId: parentId }).count()`; a `null` parent id is
not a valid IndexedDB key — Dexie's `equals` rejects `null`, and records
with a `null` `parentId` are absent from the `parentId` index anyway — so
the reachable call `createNode(null)` throws inside the `try` block before
`db.nodes.add` runs, inserts nothing and returns no id (the `catch`
re-throws).  The embedding returns `none` for that error path.  For a
string parent id the new node carries the placeholder fields
`'New Node'` / `'Node'` / `''` and the sibling-count sort order, the fresh
id being supplied by `crypto.randomUUID()` (a parameter here); the updated
store and the new id are returned. -/
def createNode (store : List Node) (parentId : Option String) (newId : String) :
    Option (List Node × String) :=
  match parentId with
  | none => none
  | some p =>
    let siblingCount := (store.filter (fun nd => nd.parentId == some p)).length
    let newNode : Node :=
      { id := newId, parentId := some p, name := "New Node", type := "Node",
        description := "", sortOrder := (siblingCount : Int) }
    some (store ++ [newNode], newId)

/-- Dexie `db.nodes.where('parentId').equals(currentId).toArray()`: the stored
nodes whose parent id is the given string (a `null` parent never matches a
string key). -/
def childrenOf (store : List Node) (currentId : String) : List Node :=
  store.filter (fun nd => nd.parentId == some currentId)

/-- The breadth-first collection loop of `deleteNodeAndChildren`
(`src/lib/db.ts` 79–97): a queue with a moving head index and a visited
set.  The source's `while (head < queue.length)` has no fuel; the
embedding adds one and `collect_terminates` (claim C10) shows
`store.length + 2` always suffices, so `deleteNodeAndChildren` below runs
with exactly that fuel. -/
def collectLoop (store : List Node) : Nat → List String → Nat → List String →
    Option (List String)
  | 0, _, _, _ => none
  | fuel + 1, queue, head, visited =>
    if h : head < queue.length then
      let currentId := queue.get ⟨head, h⟩
      if currentId ∈ visited then collectLoop store fuel queue (head + 1) visited
      else
        collectLoop store fuel
          (queue ++ (childrenOf store currentId).map (·.id)) (head + 1)
          (visited ++ [currentId])
    else some visited

/-- The mutator `deleteNodeAndChildren` (`src/lib/db.ts` 77–103): collect `nodeId` and
all transitive children breadth-first, then bulk-delete the collected ids.
The `none` arm is unreachable (termination theorem below). -/
def deleteNodeAndChildren (store : List Node) (nodeId : String) : List Node :=
  match collectLoop store (store.length + 2) [nodeId] 0 [] with
  | some visited => store.filter (fun nd => !(visited.contains nd.id))
  | none => store

/-- The ids reachable from `x` by repeatedly taking stored children
(`x` itself, plus transitively every node whose `parentId` chain leads to
`x`): the specification's `{X} ∪ transitive-children(X)`. -/
inductive Reach (store : List Node) (x : String) : String → Prop
  | refl : Reach store x x
  | child {p : String} {nd : Node} : Reach store x p → nd ∈ store →
      nd.parentId = some p → Reach store x nd.id

/-- Number of stored nodes whose parent id has not been visited yet; the
decreasing part of the termination measure of the collection loop. -/
def remCount (store : List Node) (visited : List String) : Nat :=
  store.countP (fun nd =>
    match nd.parentId with
    | none => true
    | some p => !(visited.contains p))

/-! ## Drag-and-drop reparent guard (`TreeNode.svelte` 101–144) -/

/-- The drop positions computed by `handleDragOver`; a drop can also fire
with no indicator (`null`), which takes the `else` branches below. -/
inductive DropIndicator
  | before
  | after
  | onto     -- the source's "on"
deriving DecidableEq

/-- The ancestor walk of `handleDrop` (`TreeNode.svelte` 110–119): starting
from the drop target, walk `parentId` pointers through `flatNodeMap`; the
drop is rejected as soon as `sourceId` is met.  Unbounded `while` in the
source; fuelled here (`store.length + 1` covers every parent chain of a
forest). -/
def ancestorWalk (store : List Node) (sourceId : String) :
    Nat → Option String → Bool
  | 0, _ => false
  | fuel + 1, currentId =>
    match currentId with
    | none => false
    | some c =>
      if c == "" then false    -- `while (currentId)`: "" is falsy
      else if c == sourceId then true
      else
        ancestorWalk store sourceId fuel
          (match store.find? (fun nd => nd.id == c) with
           | some nd => nd.parentId
           | none => none)

/-- Modelled from the spec: `reorderNode` is imported from `$lib/db` in
`TreeNode.svelte` but its definition is not under `src/`.  Spec § 4.2:
"Reorder/Reparent(sourceId, newParentId, newSortOrder): MUST reject
(no-op, signal failure) if newParentId equals sourceId or lies within
sourceId's descendant set … Validation walks newParentId's ancestor chain
comparing against sourceId.  On success, updates sourceId's parent and
sort order." -/
def reorderNode (store : List Node) (sourceId : String)
    (newParentId : Option String) (newSortOrder : Int) : List Node :=
  if ancestorWalk store sourceId (store.length + 1) newParentId then store
  else
    store.map (fun nd =>
      if nd.id == sourceId then
        { nd with parentId := newParentId, sortOrder := newSortOrder }
      else nd)

/-- The new parent chosen by `handleDrop`: the target itself for an "on"
drop, the target's parent otherwise. -/
def dropNewParent (node : Node) (dropIndicator : Option DropIndicator) :
    Option String :=
  match dropIndicator with
  | some DropIndicator.onto => some node.id
  | _ => node.parentId

/-- The sort order chosen by `handleDrop`; for an "on" drop the source uses
`node.children.length`, which `loadTree` (`src/lib/store.ts`) materializes
as the stored nodes whose `parentId` is `node.id`. -/
def dropNewSortOrder (store : List Node) (node : Node)
    (dropIndicator : Option DropIndicator) : Int :=
  match dropIndicator with
  | some DropIndicator.onto => ((childrenOf store node.id).length : Int)
  | some DropIndicator.before => node.sortOrder
  | _ => node.sortOrder + 1

/-- One upward step of the stored parent relation: `c` is the id of a
stored node whose parent id is `p`.  `Relation.TransGen (ParentStep store)
y x` states that `y` lies in `x`'s descendant set. -/
def ParentStep (store : List Node) (c p : String) : Prop :=
  ∃ nd ∈ store, nd.id = c ∧ nd.parentId = some p

/-- The handler `handleDrop` (`TreeNode.svelte` 101–144) restricted to its effect on
the node store: the cycle guard walks up from the drop target and returns
with the store untouched when it meets `sourceId`; the self-drop check
then bails out for non-"on" self drops; otherwise `reorderNode` commits
the new parent and sort order.  `store` is the flat node list from which
`flatNodeMap` and the rendered `node` are derived. -/
def handleDrop (store : List Node) (sourceId : String) (node : Node)
    (dropIndicator : Option DropIndicator) : List Node :=
  let targetId := node.id
  if ancestorWalk store sourceId (store.length + 1) (some targetId) then store
  else if sourceId = targetId ∧ dropIndicator ≠ some DropIndicator.onto then store
  else
    reorderNode store sourceId (dropNewParent node dropIndicator)
      (dropNewSortOrder store node dropIndicator)

/-! ## Spec-worded keyword extractor (for the refinement comparison of C6)

The spec describes the kept character class as "alphanumerics/hyphen/
whitespace"; the source's regex `\w` additionally keeps the underscore.
`specExtractInitialKeywords` follows the spec's words so that the two can
be compared. -/

/-- The character class of the spec's wording: alphanumerics, hyphen,
whitespace — no underscore. -/
def specKeepChar (c : Char) : Bool := c.isAlphanum || isSpaceChar c || c == '-'

def specNormalizeChar (c : Char) : Char :=
  let lc := c.toLower
  if specKeepChar lc then lc else ' '

/-- The keyword extraction procedure exactly as worded by the spec /
claim C6: lowercase, replace every character outside
alphanumerics/hyphen/whitespace with whitespace, split on whitespace, keep
the distinct tokens of length > 2. -/
def specExtractInitialKeywords (textContent : String) : List String :=
  dedupFirst
    (((splitRuns (textContent.data.map specNormalizeChar)).map
        (fun t => String.mk t)).filter (fun w => 2 < w.length))

/-! ## Concrete nodes used by the counterexamples and witnesses -/

def witParent : Node := ⟨"P", none, "parent", "T", "", 0⟩

def witChild : Node := ⟨"Q", some "P", "child", "T", "", 0⟩

/-- A store holding a single orphan child of the absent id `"X"`. -/
def orphanNode : Node := ⟨"C", some "X", "", "", "", 0⟩

def cexNodeA : Node := ⟨"A", none, "", "T", "gadget improves widget", 0⟩

def cexNodeB : Node := ⟨"B", none, "", "T", "gadget widget stuff", 0⟩

/-- The running invariant of the generation loop: every pushed link is
labelled with a key distinct from its target, reaches the shared-keyword
threshold, has its provenance list of length equal to its weight (the
sorted shared keywords of the two significant sets), stays below the
running `maxWeight`, and has a reciprocal partner event whose relation is
tied to its own through the inverse table in one direction. -/
def EventsInv (st : GenState) : Prop :=
  ∀ e ∈ st.events,
    e.1 ≠ e.2.target_id ∧
    MIN_SHARED_KEYWORDS_THRESHOLD ≤ e.2.weight ∧
    e.2.weight ≤ st.maxWeight ∧
    e.2.provenance.length = e.2.weight ∧
    ∃ e' ∈ st.events, e'.1 = e.2.target_id ∧ e'.2.target_id = e.1 ∧
      e'.2.weight = e.2.weight ∧ e'.2.provenance = e.2.provenance ∧
      (e'.2.relation = inverseRelation e.2.relation ∨
        inverseRelation e'.2.relation = e.2.relation)

/-! ## Basic helper lemmas -/

theorem mem_addUnique {α : Type} [DecidableEq α] {l : List α} {a x : α}
    (h : x ∈ addUnique l a) : x ∈ l ∨ x = a := by
  unfold addUnique at h
  split at h
  · exact Or.inl h
  · rcases List.mem_append.mp h with h1 | h1
    · exact Or.inl h1
    · right; simpa using h1

theorem mem_foldl_addUnique {α : Type} [DecidableEq α] :
    ∀ (l acc : List α) (x : α), x ∈ l.foldl addUnique acc → x ∈ acc ∨ x ∈ l
  | [], _, _, h => Or.inl h
  | a :: l, acc, x, h => by
    rcases mem_foldl_addUnique l (addUnique acc a) x h with h1 | h1
    · rcases mem_addUnique h1 with h2 | h2
      · exact Or.inl h2
      · right; simp [h2]
    · right; simp [h1]

theorem mem_dedupFirst {α : Type} [DecidableEq α] {l : List α} {x : α}
    (h : x ∈ dedupFirst l) : x ∈ l := by
  rcases mem_foldl_addUnique l [] x h with h1 | h1
  · simp at h1
  · exact h1

/-- Every character of every chunk of `splitRuns cs` is a non-whitespace
character of `cs`. -/
theorem splitRuns_chars :
    ∀ (cs : List Char) (t : List Char), t ∈ splitRuns cs →
      ∀ ch ∈ t, ch ∈ cs ∧ isSpaceChar ch = false := by
  intro cs
  induction cs with
  | nil =>
    intro t ht ch hch
    simp only [splitRuns, List.mem_singleton] at ht
    subst ht; simp at hch
  | cons c rest ih =>
    intro t ht ch hch
    simp only [splitRuns] at ht
    by_cases hsp : isSpaceChar c = true
    · rw [if_pos hsp] at ht
      rcases List.mem_cons.mp ht with rfl | ht
      · simp at hch
      · rcases ih t ht ch hch with ⟨h1, h2⟩
        exact ⟨List.mem_cons_of_mem _ h1, h2⟩
    · rw [if_neg hsp] at ht
      have hspf : isSpaceChar c = false := by
        cases hv : isSpaceChar c
        · rfl
        · exact absurd hv hsp
      rcases hr : splitRuns rest with _ | ⟨t0, ts⟩
      · rw [hr] at ht
        have ht' : t ∈ [[c]] := ht
        rcases List.mem_singleton.mp ht' with rfl
        rcases List.mem_singleton.mp hch with rfl
        exact ⟨List.mem_cons_self _ _, hspf⟩
      · rw [hr] at ht
        have ht' : t ∈ (c :: t0) :: ts := ht
        rcases List.mem_cons.mp ht' with rfl | ht2
        · rcases List.mem_cons.mp hch with rfl | hch2
          · exact ⟨List.mem_cons_self _ _, hspf⟩
          · rcases ih t0 (by rw [hr]; exact List.mem_cons_self _ _) ch hch2 with ⟨h1, h2⟩
            exact ⟨List.mem_cons_of_mem _ h1, h2⟩
        · rcases ih t (by rw [hr]; exact List.mem_cons_of_mem _ ht2) ch hch with ⟨h1, h2⟩
          exact ⟨List.mem_cons_of_mem _ h1, h2⟩

/-- Lowercasing via `Char.toLower` never yields an upper-case ASCII letter. -/
theorem toLower_isUpper_eq_false (c : Char) : c.toLower.isUpper = false := by
  unfold Char.toLower
  by_cases h : c.toNat ≥ 65 ∧ c.toNat ≤ 90
  · simp only [h, if_true]
    have hv : (c.toNat + 32).isValidChar := Or.inl (by omega)
    rw [Char.ofNat, dif_pos hv]
    have h90 : ¬ ((Char.ofNatAux (c.toNat + 32) hv).val ≤ 90) := by
      rw [Char.ofNatAux]
      simp only [UInt32.le_def, BitVec.le_def]
      simp
      omega
    simp only [Char.isUpper, Bool.and_eq_false_iff]
    right
    simpa using h90
  · simp only [h, if_false]
    simp only [Char.isUpper, Bool.and_eq_false_iff]
    simp only [Char.toNat] at h
    have hnat : c.val.toNat = c.val.toBitVec.toNat := rfl
    rcases Nat.lt_or_ge c.val.toNat 65 with h1 | h1
    · left
      simp only [UInt32.le_def, BitVec.le_def]
      simp
      omega
    · right
      simp only [UInt32.le_def, BitVec.le_def]
      simp
      omega

/-- The character class of keyword characters: every non-whitespace result
of `normalizeChar` is a lower-case letter, a digit, a hyphen or an
underscore. -/
theorem normalizeChar_class (c : Char) (h : isSpaceChar (normalizeChar c) = false) :
    ((normalizeChar c).isLower || (normalizeChar c).isDigit ||
      normalizeChar c == '-' || normalizeChar c == '_') = true := by
  by_cases hk : keepChar c.toLower = true
  · have hval : normalizeChar c = c.toLower := by
      simp only [normalizeChar]; rw [if_pos hk]
    rw [hval] at h ⊢
    simp only [keepChar, isWordChar, Char.isAlphanum, Char.isAlpha,
      Bool.or_eq_true, beq_iff_eq] at hk
    rcases hk with ((((hU | hL) | hD) | hu) | hS) | hH
    · rw [toLower_isUpper_eq_false c] at hU; cases hU
    · simp [hL]
    · simp [hD]
    · simp [hu]
    · rw [h] at hS; cases hS
    · simp [hH]
  · have hval : normalizeChar c = ' ' := by
      simp only [normalizeChar]; rw [if_neg hk]
    rw [hval] at h
    exact absurd h (by decide)

/-! ## Claim C6 — keyword extraction -/

/-- Claim C6, counterexample: on the input `"ab_cd"` the source keeps the
underscore (JS `\w`), producing the keyword `"ab_cd"`, while the claimed
procedure (alphanumerics/hyphen/whitespace only) would split the text into
the discarded short tokens `ab` and `cd`; the extracted keyword contains a
character that is neither an alphanumeric nor a hyphen. -/
theorem keyword_extraction_cex :
    _extractInitialKeywords "ab_cd" = ["ab_cd"] ∧
    specExtractInitialKeywords "ab_cd" = [] ∧
    ¬ (∀ c ∈ ("ab_cd" : String).data, c.isAlphanum = true ∨ c = '-') := by
  refine ⟨by decide, by decide, ?_⟩
  intro h
  rcases h '_' (by decide) with h1 | h1 <;> simp at h1

/-- Claim C6, amended: every keyword produced by `_extractInitialKeywords`
has length at least 3 and consists only of lower-case letters, digits,
hyphens and underscores (the source's `\w` keeps the underscore in
addition to the claimed alphanumerics and hyphen). -/
theorem keyword_extraction_amended (text kw : String)
    (h : kw ∈ _extractInitialKeywords text) :
    3 ≤ kw.length ∧
    ∀ c ∈ kw.data, (c.isLower || c.isDigit || c == '-' || c == '_') = true := by
  have h1 := mem_dedupFirst h
  rcases List.mem_filter.mp h1 with ⟨h2, h3⟩
  rcases List.mem_map.mp h2 with ⟨t, ht, rfl⟩
  refine ⟨by have := of_decide_eq_true h3; omega, ?_⟩
  intro c hc
  have hct : c ∈ t := hc
  rcases splitRuns_chars _ t ht c hct with ⟨hmem, hns⟩
  rcases List.mem_map.mp hmem with ⟨c₀, _, rfl⟩
  exact normalizeChar_class c₀ hns

/-- Witness for `keyword_extraction_amended` at the concrete text
`"Hello world!"` and keyword `"hello"`. -/
theorem keyword_extraction_witness :
    3 ≤ ("hello" : String).length ∧
    ∀ c ∈ ("hello" : String).data,
      (c.isLower || c.isDigit || c == '-' || c == '_') = true :=
  keyword_extraction_amended "Hello world!" "hello" (by decide)

/-! ## Claim C5 — structural precedence in relationship inference -/

/-- Claim C5: whenever `A` is the parent of `B`, `inferRelationship`
returns a structural parent/child relation for the pair in either
argument order — never a type-rule, keyword-verb or `is_related_to`
fallback relation.  (The first branch can fire only in the corrupt
mutual-parent case; on forest data the pair is exactly
`has_child`/`is_child_of`.) -/
theorem structural_precedence (A B : Node) (shared : List String)
    (nodeMap : List Node) (h : B.parentId = some A.id) :
    (inferRelationship A B shared nodeMap = "has_child" ∨
      inferRelationship A B shared nodeMap = "is_child_of") ∧
    inferRelationship B A shared nodeMap = "is_child_of" := by
  constructor
  · by_cases h2 : A.parentId = some B.id
    · right; simp [inferRelationship, h2]
    · left; simp [inferRelationship, h2, h]
  · simp [inferRelationship, h]

/-- Witness for `structural_precedence` on a concrete parent/child pair. -/
theorem structural_precedence_witness :
    (inferRelationship witParent witChild [] [witParent, witChild] = "has_child" ∨
      inferRelationship witParent witChild [] [witParent, witChild] = "is_child_of") ∧
    inferRelationship witChild witParent [] [witParent, witChild] = "is_child_of" :=
  structural_precedence witParent witChild [] [witParent, witChild] (by decide)

/-! ## Claim C7 — create operation -/

/-- Claim C7, counterexample, at two concrete inputs.  For `parentId =
null` (the reachable root-creation call): the sibling-count query rejects
the `null` key, so `createNode` inserts nothing and returns no id — the
claim promised an inserted node and a returned id for null parents too.
For a string parent: the inserted node's name and type are the
placeholders `'New Node'` / `'Node'`, not the claimed empty strings. -/
theorem create_node_cex :
    createNode [] none "n1" = none ∧
    createNode [] (some "P") "n1" =
      some ([{ id := "n1", parentId := some "P", name := "New Node",
               type := "Node", description := "", sortOrder := 0 }], "n1") ∧
    ¬ (∀ res, createNode [] (some "P") "n1" = some res →
        ∀ nd ∈ res.1, nd.name = "" ∧ nd.type = "") := by
  refine ⟨rfl, by decide, ?_⟩
  intro h
  have := h ([{ id := "n1", parentId := some "P", name := "New Node",
                type := "Node", description := "", sortOrder := 0 }], "n1")
    (by decide)
    { id := "n1", parentId := some "P", name := "New Node",
      type := "Node", description := "", sortOrder := 0 } (by decide)
  simp at this

/-- Claim C7, amended: for every non-null parentId, `createNode` assigns
the new node a sort order equal to the current sibling count under that
parent, inserts a node with the placeholder name `"New Node"`, type
`"Node"` and empty description, returns the fresh id, and keeps the stored
ids unique; for a null parentId the sibling-count query rejects the null
key, the error propagates, and nothing is inserted and no id returned. -/
theorem create_node_amended (store : List Node) (p : String)
    (newId : String) (hids : (store.map (fun nd => nd.id)).Nodup)
    (hfresh : newId ∉ store.map (fun nd => nd.id)) :
    (∃ nd : Node,
      createNode store (some p) newId = some (store ++ [nd], newId) ∧
      nd.id = newId ∧ nd.parentId = some p ∧ nd.name = "New Node" ∧
      nd.type = "Node" ∧ nd.description = "" ∧
      nd.sortOrder =
        ((store.filter (fun m => m.parentId == some p)).length : Int) ∧
      ((store ++ [nd]).map (fun m => m.id)).Nodup) ∧
    createNode store none newId = none := by
  refine ⟨⟨{ id := newId, parentId := some p, name := "New Node", type := "Node",
             description := "",
             sortOrder :=
               ((store.filter (fun m => m.parentId == some p)).length : Int) },
           rfl, rfl, rfl, rfl, rfl, rfl, rfl, ?_⟩, rfl⟩
  rw [List.map_append, List.nodup_append]
  refine ⟨hids, List.nodup_singleton _, ?_⟩
  intro a ha hb
  simp only [List.map_cons, List.map_nil, List.mem_singleton] at hb
  subst hb
  exact hfresh ha

/-- Witness for `create_node_amended` on a concrete store. -/
theorem create_node_witness :
    (∃ nd : Node,
      createNode [witParent] (some "P") "n2" = some ([witParent] ++ [nd], "n2") ∧
      nd.id = "n2" ∧ nd.parentId = some "P" ∧ nd.name = "New Node" ∧
      nd.type = "Node" ∧ nd.description = "" ∧
      nd.sortOrder =
        (([witParent].filter (fun m => m.parentId == some "P")).length : Int) ∧
      (([witParent] ++ [nd]).map (fun m => m.id)).Nodup) ∧
    createNode [witParent] none "n2" = none :=
  create_node_amended [witParent] "P" "n2" (by decide) (by decide)

/-! ## Claim C8 — delete-subtree: counterexample -/

/-- Claim C8, counterexample: `"X"` is absent from the store, yet
`deleteNodeAndChildren store "X"` is not a no-op — the breadth-first
collection still enqueues the children of `"X"` and deletes the orphan
node `"C"`. -/
theorem delete_subtree_cex :
    (¬ ∃ nd ∈ [orphanNode], nd.id = "X") ∧
    deleteNodeAndChildren [orphanNode] "X" = [] ∧
    deleteNodeAndChildren [orphanNode] "X" ≠ [orphanNode] := by
  refine ⟨by decide, by decide, by decide⟩

/-! ## Claim C1 — cross-reference symmetry: counterexample -/

/-- Claim C1, counterexample: in the two-node corpus
`[cexNodeA, cexNodeB]` the pair shares the keywords `gadget` and `widget`
and the keyword-verb rule fires on `improves`, so the index holds
`A→B : improves` and `B→A : is_improved_by`.  The claim applied to the
link `B→A` (relation `is_improved_by`) demands a link `A→B` with relation
`inverse(is_improved_by)`; the inverse table has no entry for
`is_improved_by`, so its inverse defaults to itself, and no `A→B` link
with that relation exists — the only `A→B` link carries `improves`. -/
theorem cross_reference_symmetry_cex :
    (∃ e ∈ generateCrossReferences [cexNodeA, cexNodeB], e.1 = "B" ∧
       ∃ l ∈ e.2, l.target_id = "A" ∧ l.relation = "is_improved_by") ∧
    ¬ (∃ e ∈ generateCrossReferences [cexNodeA, cexNodeB], e.1 = "A" ∧
       ∃ l ∈ e.2, l.target_id = "B" ∧
         l.relation = inverseRelation "is_improved_by") := by
  constructor
  · decide
  · decide

/-! ## Event-level invariants of the pair-generation loop -/

theorem foldl_preserve {α β : Type} {P : β → Prop} (f : β → α → β) :
    ∀ (l : List α) (init : β), P init → (∀ st a, P st → P (f st a)) →
      P (l.foldl f init)
  | [], _, h0, _ => h0
  | a :: l, init, h0, hstep => foldl_preserve f l (f init a) (hstep init a h0) hstep

theorem sortPair_ne {u o : String} (h : u ≠ o) : (sortPair u o).1 ≠ (sortPair u o).2 := by
  unfold sortPair
  split
  · exact h
  · exact fun h2 => h h2.symm

theorem length_insertStr (a : String) : ∀ l : List String,
    (insertStr a l).length = l.length + 1
  | [] => rfl
  | b :: l => by
    unfold insertStr
    split
    · simp
    · simp [length_insertStr a l]

theorem length_sortStrings (l : List String) :
    (sortStrings l).length = l.length := by
  induction l with
  | nil => rfl
  | cons a l ih =>
    show (insertStr a (sortStrings l)).length = l.length + 1
    rw [length_insertStr, ih]

/-- The step shape of `processPair`: either the event list is unchanged
(`maxWeight` possibly raised), or exactly the two reciprocal links of one
qualifying pair are appended. -/
theorem processPair_shape (allNodes : List Node) (nk : List (String × List String))
    (uuid : String) (st : GenState) (otherUuid : String) :
    ((processPair allNodes nk uuid st otherUuid).events = st.events ∧
      st.maxWeight ≤ (processPair allNodes nk uuid st otherUuid).maxWeight) ∨
    (∃ a b k1 k2 rel,
        a ≠ b ∧
        lookupM nk a = some k1 ∧ lookupM nk b = some k2 ∧
        MIN_SHARED_KEYWORDS_THRESHOLD ≤ (k2.filter (fun kw => k1.contains kw)).length ∧
        (k2.filter (fun kw => k1.contains kw)).length ≤
          (processPair allNodes nk uuid st otherUuid).maxWeight ∧
        st.maxWeight ≤ (processPair allNodes nk uuid st otherUuid).maxWeight ∧
        (processPair allNodes nk uuid st otherUuid).events = st.events ++
          [(a, ⟨b, (k2.filter (fun kw => k1.contains kw)).length, rel,
                sortStrings (k2.filter (fun kw => k1.contains kw))⟩),
           (b, ⟨a, (k2.filter (fun kw => k1.contains kw)).length, inverseRelation rel,
                sortStrings (k2.filter (fun kw => k1.contains kw))⟩)]) := by
  simp only [processPair]
  by_cases h0 : uuid = otherUuid
  · rw [if_pos h0]
    exact Or.inl ⟨rfl, Nat.le_refl _⟩
  · rw [if_neg h0]
    by_cases h1 : (sortPair uuid otherUuid).1 ++ "|" ++ (sortPair uuid otherUuid).2 ∈
        st.processed
    · rw [if_pos h1]
      exact Or.inl ⟨rfl, Nat.le_refl _⟩
    · rw [if_neg h1]
      rcases hk1 : lookupM nk (sortPair uuid otherUuid).1 with _ | k1 <;>
        rcases hk2 : lookupM nk (sortPair uuid otherUuid).2 with _ | k2 <;>
        simp only [hk1, hk2]
      · exact Or.inl ⟨by simp, by simp⟩
      · exact Or.inl ⟨by simp, by simp⟩
      · exact Or.inl ⟨by simp, by simp⟩
      · by_cases h2 : MIN_SHARED_KEYWORDS_THRESHOLD ≤
            (k2.filter (fun kw => k1.contains kw)).length
        · by_cases h3 : st.maxWeight < (k2.filter (fun kw => k1.contains kw)).length
          · rw [if_pos h3, if_pos h2]
            exact Or.inr ⟨(sortPair uuid otherUuid).1, (sortPair uuid otherUuid).2,
              k1, k2, _, sortPair_ne h0, hk1, hk2, h2, Nat.le_refl _,
              Nat.le_of_lt h3, rfl⟩
          · rw [if_neg h3, if_pos h2]
            exact Or.inr ⟨(sortPair uuid otherUuid).1, (sortPair uuid otherUuid).2,
              k1, k2, _, sortPair_ne h0, hk1, hk2, h2, Nat.le_of_not_lt h3,
              Nat.le_refl _, rfl⟩
        · by_cases h3 : st.maxWeight < (k2.filter (fun kw => k1.contains kw)).length
          · rw [if_pos h3, if_neg h2]
            exact Or.inl ⟨rfl, Nat.le_of_lt h3⟩
          · rw [if_neg h3, if_neg h2]
            exact Or.inl ⟨rfl, Nat.le_refl _⟩

theorem processPair_inv (allNodes : List Node) (nk : List (String × List String))
    (uuid : String) (st : GenState) (otherUuid : String) (h : EventsInv st) :
    EventsInv (processPair allNodes nk uuid st otherUuid) := by
  rcases processPair_shape allNodes nk uuid st otherUuid with
    ⟨hev, hmw⟩ | ⟨a, b, k1, k2, rel, hab, hk1, hk2, hthr, hwle, hmw, hev⟩
  · intro e he
    rw [hev] at he
    rcases h e he with ⟨x1, x2, x3, x4, e', he', hx⟩
    exact ⟨x1, x2, Nat.le_trans x3 hmw, x4, e', by rw [hev]; exact he', hx⟩
  · intro e he
    rw [hev] at he
    rcases List.mem_append.mp he with hold | hnew
    · rcases h e hold with ⟨x1, x2, x3, x4, e', he', hx⟩
      exact ⟨x1, x2, Nat.le_trans x3 hmw, x4,
        e', by rw [hev]; exact List.mem_append_left _ he', hx⟩
    · set w := (k2.filter (fun kw => k1.contains kw)).length with hw
      set prov := sortStrings (k2.filter (fun kw => k1.contains kw)) with hprov
      have hprovlen : prov.length = w := length_sortStrings _
      rcases List.mem_cons.mp hnew with rfl | hnew2
      · refine ⟨hab, hthr, hwle, hprovlen, (b, ⟨a, w, inverseRelation rel, prov⟩),
          ?_, rfl, rfl, rfl, rfl, Or.inl rfl⟩
        rw [hev]
        exact List.mem_append_right _ (by simp)
      · rcases List.mem_cons.mp hnew2 with rfl | hnew3
        · refine ⟨fun hc => hab hc.symm, hthr, hwle, hprovlen,
            (a, ⟨b, w, rel, prov⟩), ?_, rfl, rfl, rfl, rfl, Or.inr rfl⟩
          rw [hev]
          exact List.mem_append_right _ (by simp)
        · simp at hnew3

/-- The invariant holds for the full run of `genEvents`. -/
theorem genEvents_inv (allNodes : List Node) : EventsInv (genEvents allNodes) := by
  unfold genEvents
  apply foldl_preserve
  · intro e he
    simp at he
  · intro st e hst
    apply foldl_preserve
    · exact hst
    · intro st' o hst'
      exact processPair_inv allNodes _ e.1 st' o hst'

/-! ## From events to the temp index -/

theorem mem_mapPushLink {a u : String} {x lk : TempLink}
    (m : List (String × List TempLink)) :
    (∃ ls, (a, ls) ∈ mapPushLink m u lk ∧ x ∈ ls) ↔
    ((∃ ls, (a, ls) ∈ m ∧ x ∈ ls) ∨ (a = u ∧ x = lk)) := by
  induction m with
  | nil =>
    constructor
    · rintro ⟨ls, hls, hx⟩
      simp only [mapPushLink, List.mem_singleton, Prod.mk.injEq] at hls
      obtain ⟨rfl, rfl⟩ := hls
      right
      exact ⟨rfl, List.mem_singleton.mp hx⟩
    · rintro (⟨ls, hls, _⟩ | ⟨rfl, rfl⟩)
      · simp at hls
      · refine ⟨[x], ?_, by simp⟩
        simp [mapPushLink]
  | cons e rest ih =>
    obtain ⟨k, kls⟩ := e
    by_cases hk : k = u
    · subst hk
      have hred : mapPushLink ((k, kls) :: rest) k lk = (k, kls ++ [lk]) :: rest := by
        simp [mapPushLink]
      rw [hred]
      constructor
      · rintro ⟨ls, hls, hx⟩
        rcases List.mem_cons.mp hls with heq | hmem
        · rw [Prod.mk.injEq] at heq
          obtain ⟨rfl, rfl⟩ := heq
          rcases List.mem_append.mp hx with hx1 | hx2
          · exact Or.inl ⟨kls, List.mem_cons_self _ _, hx1⟩
          · exact Or.inr ⟨rfl, List.mem_singleton.mp hx2⟩
        · exact Or.inl ⟨ls, List.mem_cons_of_mem _ hmem, hx⟩
      · rintro (⟨ls, hls, hx⟩ | ⟨rfl, rfl⟩)
        · rcases List.mem_cons.mp hls with heq | hmem
          · rw [Prod.mk.injEq] at heq
            obtain ⟨rfl, rfl⟩ := heq
            exact ⟨ls ++ [lk], List.mem_cons_self _ _, List.mem_append_left _ hx⟩
          · exact ⟨ls, List.mem_cons_of_mem _ hmem, hx⟩
        · exact ⟨kls ++ [x], List.mem_cons_self _ _,
            List.mem_append_right _ (by simp)⟩
    · have hbeq : (k == u) = false := beq_eq_false_iff_ne.mpr hk
      have hred : mapPushLink ((k, kls) :: rest) u lk =
          (k, kls) :: mapPushLink rest u lk := by
        simp [mapPushLink, hbeq]
      rw [hred]
      constructor
      · rintro ⟨ls, hls, hx⟩
        rcases List.mem_cons.mp hls with heq | hmem
        · rw [Prod.mk.injEq] at heq
          obtain ⟨rfl, rfl⟩ := heq
          exact Or.inl ⟨ls, List.mem_cons_self _ _, hx⟩
        · rcases ih.mp ⟨ls, hmem, hx⟩ with ⟨ls2, h2, hx2⟩ | h2
          · exact Or.inl ⟨ls2, List.mem_cons_of_mem _ h2, hx2⟩
          · exact Or.inr h2
      · rintro (⟨ls, hls, hx⟩ | ⟨rfl, rfl⟩)
        · rcases List.mem_cons.mp hls with heq | hmem
          · rw [Prod.mk.injEq] at heq
            obtain ⟨rfl, rfl⟩ := heq
            exact ⟨ls, List.mem_cons_self _ _, hx⟩
          · rcases ih.mpr (Or.inl ⟨ls, hmem, hx⟩) with ⟨ls2, h2, hx2⟩
            exact ⟨ls2, List.mem_cons_of_mem _ h2, hx2⟩
        · rcases ih.mpr (Or.inr ⟨rfl, rfl⟩) with ⟨ls2, h2, hx2⟩
          exact ⟨ls2, List.mem_cons_of_mem _ h2, hx2⟩

theorem mem_foldl_mapPushLink {a : String} {x : TempLink} :
    ∀ (evs : List (String × TempLink)) (acc : List (String × List TempLink)),
      (∃ ls, (a, ls) ∈ evs.foldl (fun m e => mapPushLink m e.1 e.2) acc ∧ x ∈ ls) ↔
      ((∃ ls, (a, ls) ∈ acc ∧ x ∈ ls) ∨ (a, x) ∈ evs
      )
  | [], acc => by simp
  | e :: evs, acc => by
    rw [List.foldl_cons, mem_foldl_mapPushLink evs (mapPushLink acc e.1 e.2)]
    rw [mem_mapPushLink acc]
    constructor
    · rintro ((h | ⟨rfl, rfl⟩) | h)
      · exact Or.inl h
      · exact Or.inr (by simp)
      · exact Or.inr (List.mem_cons_of_mem _ h)
    · rintro (h | h)
      · exact Or.inl (Or.inl h)
      · rcases List.mem_cons.mp h with heq | hmem
        · rcases Prod.mk.injEq .. ▸ heq with ⟨rfl, rfl⟩
          exact Or.inl (Or.inr ⟨rfl, rfl⟩)
        · exact Or.inr hmem

/-- A link `x` stands in the `tempCrossrefs` list of `a` exactly when the
generation loop pushed the event `(a, x)`. -/
theorem mem_tempCrossrefs {allNodes : List Node} {a : String} {x : TempLink} :
    (∃ ls, (a, ls) ∈ tempCrossrefs allNodes ∧ x ∈ ls) ↔
    (a, x) ∈ (genEvents allNodes).events := by
  unfold tempCrossrefs
  rw [mem_foldl_mapPushLink]
  simp

/-! ## Claim C1 — cross-reference symmetry (amended: pre-truncation) -/

/-- Claim C1, amended: before the per-node sort-and-truncate step, every
link `A→B` in the `tempCrossrefs` map has a reciprocal link `B→A` with
identical provenance and identical weight (hence identical confidence,
confidence being a function of the weight and the corpus maxWeight); the
two relations are tied through the inverse table in one direction (`R' =
inverse(R)` for the forward link, and `inverse(R') = R` for the link that
was itself created as an inverse — the table is not an involution, e.g.
`inverse(improves) = is_improved_by` while `is_improved_by` has no entry
and defaults to itself). -/
theorem cross_reference_symmetry_amended (allNodes : List Node) (a : String)
    (ls : List TempLink) (l : TempLink)
    (h1 : (a, ls) ∈ tempCrossrefs allNodes) (h2 : l ∈ ls) :
    ∃ ls' l', (l.target_id, ls') ∈ tempCrossrefs allNodes ∧ l' ∈ ls' ∧
      l'.target_id = a ∧ l'.weight = l.weight ∧ l'.provenance = l.provenance ∧
      (l'.relation = inverseRelation l.relation ∨
        inverseRelation l'.relation = l.relation) := by
  have hev : (a, l) ∈ (genEvents allNodes).events := mem_tempCrossrefs.mp ⟨ls, h1, h2⟩
  rcases genEvents_inv allNodes _ hev with ⟨_, _, _, _, e', he', ht1, ht2, hw, hp, hr⟩
  have hev' : (l.target_id, e'.2) ∈ (genEvents allNodes).events := by
    rw [← ht1]
    exact he'
  rcases mem_tempCrossrefs.mpr hev' with ⟨ls', hls', hl'⟩
  exact ⟨ls', e'.2, hls', hl', ht2, hw, hp, hr⟩

/-- Witness for `cross_reference_symmetry_amended`: the reciprocal of the
`B→A : is_improved_by` link of the two-node corpus. -/
theorem cross_reference_symmetry_witness :
    ∃ ls' l', (("A" : String), ls') ∈ tempCrossrefs [cexNodeA, cexNodeB] ∧
      l' ∈ ls' ∧ l'.target_id = "B" ∧ l'.weight = 2 ∧
      l'.provenance = ["gadget", "widget"] ∧
      (l'.relation = inverseRelation "is_improved_by" ∨
        inverseRelation l'.relation = "is_improved_by") :=
  cross_reference_symmetry_amended [cexNodeA, cexNodeB] "B"
    [⟨"A", 2, "is_improved_by", ["gadget", "widget"]⟩]
    ⟨"A", 2, "is_improved_by", ["gadget", "widget"]⟩ (by decide) (by decide)

/-! ## Membership facts for the final index -/

theorem mem_insertLinkDesc {x a : TempLink} :
    ∀ l : List TempLink, x ∈ insertLinkDesc a l ↔ x = a ∨ x ∈ l
  | [] => by simp [insertLinkDesc]
  | b :: l => by
    unfold insertLinkDesc
    split
    · simp [List.mem_cons]
    · rw [List.mem_cons, mem_insertLinkDesc l, List.mem_cons]
      tauto

theorem mem_sortLinksDesc {x : TempLink} :
    ∀ l : List TempLink, x ∈ sortLinksDesc l ↔ x ∈ l
  | [] => Iff.rfl
  | a :: l => by
    show x ∈ insertLinkDesc a (sortLinksDesc l) ↔ _
    rw [mem_insertLinkDesc, mem_sortLinksDesc l, List.mem_cons]

theorem mem_generateCrossReferences {allNodes : List Node} {u : String}
    {ls : List TempLink} (h : (u, ls) ∈ generateCrossReferences allNodes) :
    ∃ ls0, (u, ls0) ∈ tempCrossrefs allNodes ∧
      ls = (sortLinksDesc ls0).take MAX_LINKS_PER_NODE := by
  unfold generateCrossReferences at h
  split at h
  · simp at h
  · rcases List.mem_map.mp h with ⟨e, he, heq⟩
    rw [Prod.mk.injEq] at heq
    obtain ⟨h1, h2⟩ := heq
    refine ⟨e.2, ?_, h2.symm⟩
    rw [← h1]
    exact he

/-- A link of the final index always stems from a generation event of its
node. -/
theorem link_in_index_event {allNodes : List Node} {u : String}
    {ls : List TempLink} {l : TempLink}
    (h1 : (u, ls) ∈ generateCrossReferences allNodes) (h2 : l ∈ ls) :
    (u, l) ∈ (genEvents allNodes).events := by
  rcases mem_generateCrossReferences h1 with ⟨ls0, hls0, rfl⟩
  exact mem_tempCrossrefs.mp
    ⟨ls0, hls0, (mem_sortLinksDesc _).mp (List.take_subset _ _ h2)⟩

/-! ## Claim C9 — no self loops -/

/-- Claim C9: no node's outgoing link list of the final index contains a
link back to the node itself (`if (uuid === otherUuid) continue` plus the
canonical pair ordering keeps the two endpoints distinct). -/
theorem no_self_loops (allNodes : List Node) (u : String) (ls : List TempLink)
    (l : TempLink) (h1 : (u, ls) ∈ generateCrossReferences allNodes)
    (h2 : l ∈ ls) : l.target_id ≠ u := by
  have hev := link_in_index_event h1 h2
  have hinv := genEvents_inv allNodes _ hev
  exact fun hc => hinv.1 hc.symm

/-- Witness for `no_self_loops` on the two-node corpus. -/
theorem no_self_loops_witness :
    (⟨"B", 2, "improves", ["gadget", "widget"]⟩ : TempLink).target_id ≠ "A" :=
  no_self_loops [cexNodeA, cexNodeB] "A"
    [⟨"B", 2, "improves", ["gadget", "widget"]⟩]
    ⟨"B", 2, "improves", ["gadget", "widget"]⟩ (by decide) (by decide)

/-! ## Real-number facts about the confidence function -/

theorem round_le_round_of_le {x y : ℝ} (h : x ≤ y) : round x ≤ round y := by
  rw [round_eq, round_eq]
  exact Int.floor_mono (by linarith)

theorem round3R_mono {x y : ℝ} (h : x ≤ y) : round3R x ≤ round3R y := by
  unfold round3R
  have h1 : round (1000 * x) ≤ round (1000 * y) :=
    round_le_round_of_le (by linarith)
  have h2 : ((round (1000 * x) : ℤ) : ℝ) ≤ ((round (1000 * y) : ℤ) : ℝ) := by
    exact_mod_cast h1
  exact (div_le_div_right (by norm_num : (0:ℝ) < 1000)).mpr h2

theorem one_lt_cast_add_one {M : ℕ} (hM : 1 < M) : (1 : ℝ) < 1 + (M : ℝ) := by
  have : (1 : ℝ) ≤ (M : ℝ) := by exact_mod_cast Nat.one_le_of_lt hM
  linarith

/-- Monotonicity: a larger weight never yields a smaller confidence. -/
theorem confidence_mono {w w' M : ℕ} (h : w ≤ w') :
    confidence w M ≤ confidence w' M := by
  unfold confidence
  by_cases hM0 : M = 0
  · rw [if_pos hM0, if_pos hM0]
  · rw [if_neg hM0, if_neg hM0]
    by_cases hM1 : 1 < M
    · rw [if_pos hM1, if_pos hM1]
      apply round3R_mono
      have hMpos : (0:ℝ) < Real.log (1 + (M : ℝ)) :=
        Real.log_pos (one_lt_cast_add_one hM1)
      refine (div_le_div_right hMpos).mpr ?_
      refine (Real.log_le_log_iff (by positivity) (by positivity)).mpr ?_
      have : (w : ℝ) ≤ (w' : ℝ) := by exact_mod_cast h
      linarith
    · rw [if_neg hM1, if_neg hM1]

/-- Every confidence value is non-negative. -/
theorem confidence_nonneg (w M : ℕ) : 0 ≤ confidence w M := by
  unfold confidence
  by_cases hM0 : M = 0
  · rw [if_pos hM0]
  · rw [if_neg hM0]
    by_cases hM1 : 1 < M
    · rw [if_pos hM1]
      unfold round3R
      apply div_nonneg _ (by norm_num)
      have hq : 0 ≤ Real.log (1 + (w : ℝ)) / Real.log (1 + (M : ℝ)) :=
        div_nonneg
          (Real.log_nonneg (by
            have : (0:ℝ) ≤ (w : ℝ) := Nat.cast_nonneg w
            linarith))
          (le_of_lt (Real.log_pos (one_lt_cast_add_one hM1)))
      have h0 : (0:ℤ) ≤ round (1000 * (Real.log (1 + (w : ℝ)) / Real.log (1 + (M : ℝ)))) := by
        have := round_le_round_of_le (by linarith : (0:ℝ) ≤
          1000 * (Real.log (1 + (w : ℝ)) / Real.log (1 + (M : ℝ))))
        simpa using this
      exact_mod_cast h0
    · rw [if_neg hM1]
      norm_num

/-- Every confidence value of a weight below the corpus maximum is at
most `1`. -/
theorem confidence_le_one {w M : ℕ} (h : w ≤ M) : confidence w M ≤ 1 := by
  unfold confidence
  by_cases hM0 : M = 0
  · rw [if_pos hM0]; norm_num
  · rw [if_neg hM0]
    by_cases hM1 : 1 < M
    · rw [if_pos hM1]
      unfold round3R
      rw [div_le_one (by norm_num : (0:ℝ) < 1000)]
      have hMpos : (0:ℝ) < Real.log (1 + (M : ℝ)) :=
        Real.log_pos (one_lt_cast_add_one hM1)
      have hq : Real.log (1 + (w : ℝ)) / Real.log (1 + (M : ℝ)) ≤ 1 := by
        rw [div_le_one hMpos]
        refine (Real.log_le_log_iff (by positivity) (by positivity)).mpr ?_
        have : (w : ℝ) ≤ (M : ℝ) := by exact_mod_cast h
        linarith
      have h1000 : round (1000 : ℝ) = 1000 := by
        rw [show (1000:ℝ) = ((1000:ℤ):ℝ) by norm_cast, round_intCast]
      have := round_le_round_of_le (by linarith :
        1000 * (Real.log (1 + (w : ℝ)) / Real.log (1 + (M : ℝ))) ≤ (1000:ℝ))
      rw [h1000] at this
      exact_mod_cast this
    · rw [if_neg hM1]

/-! ## Claim C3 — confidence scoring -/

/-- Claim C3: every link of the final index has weight at least the
shared-keyword threshold and at most the corpus `maxWeight` (which
consequently exceeds `1` whenever any link exists, so the `maxWeight ≤ 1`
branch never reaches the output), its provenance (the sorted shared
significant keywords) has length equal to the weight, its confidence —
`ln(1+weight)/ln(1+maxWeight)` rounded to three decimals, as idealized
over `ℝ` by `confidence` — lies in `[0,1]`, and within the same run a
larger weight never yields a smaller confidence. -/
theorem confidence_scoring (allNodes : List Node) (u : String)
    (ls : List TempLink) (l : TempLink)
    (h1 : (u, ls) ∈ generateCrossReferences allNodes) (h2 : l ∈ ls) :
    MIN_SHARED_KEYWORDS_THRESHOLD ≤ l.weight ∧
    l.weight ≤ maxWeightOf allNodes ∧
    1 < maxWeightOf allNodes ∧
    l.provenance.length = l.weight ∧
    0 ≤ confidence l.weight (maxWeightOf allNodes) ∧
    confidence l.weight (maxWeightOf allNodes) ≤ 1 ∧
    ∀ u2 ls2 l2, (u2, ls2) ∈ generateCrossReferences allNodes → l2 ∈ ls2 →
      l.weight ≤ l2.weight →
      confidence l.weight (maxWeightOf allNodes) ≤
        confidence l2.weight (maxWeightOf allNodes) := by
  have hev := link_in_index_event h1 h2
  rcases genEvents_inv allNodes _ hev with ⟨_, hthr, hle, hprov, _⟩
  have hthr' : MIN_SHARED_KEYWORDS_THRESHOLD ≤ l.weight := hthr
  have hmax : 1 < maxWeightOf allNodes := by
    have : MIN_SHARED_KEYWORDS_THRESHOLD = 2 := rfl
    unfold maxWeightOf
    omega
  refine ⟨hthr', hle, hmax, hprov, confidence_nonneg _ _, confidence_le_one hle,
    ?_⟩
  intro u2 ls2 l2 h1' h2' hw
  exact confidence_mono hw

/-- Witness for `confidence_scoring` on the two-node corpus: the
`A→B : improves` link of weight 2 with `maxWeight = 2`. -/
theorem confidence_scoring_witness :
    MIN_SHARED_KEYWORDS_THRESHOLD ≤
      (⟨"B", 2, "improves", ["gadget", "widget"]⟩ : TempLink).weight ∧
    (⟨"B", 2, "improves", ["gadget", "widget"]⟩ : TempLink).weight ≤
      maxWeightOf [cexNodeA, cexNodeB] ∧
    1 < maxWeightOf [cexNodeA, cexNodeB] ∧
    (⟨"B", 2, "improves", ["gadget", "widget"]⟩ : TempLink).provenance.length =
      (⟨"B", 2, "improves", ["gadget", "widget"]⟩ : TempLink).weight ∧
    0 ≤ confidence (⟨"B", 2, "improves", ["gadget", "widget"]⟩ : TempLink).weight
      (maxWeightOf [cexNodeA, cexNodeB]) ∧
    confidence (⟨"B", 2, "improves", ["gadget", "widget"]⟩ : TempLink).weight
      (maxWeightOf [cexNodeA, cexNodeB]) ≤ 1 ∧
    ∀ u2 ls2 l2, (u2, ls2) ∈ generateCrossReferences [cexNodeA, cexNodeB] →
      l2 ∈ ls2 →
      (⟨"B", 2, "improves", ["gadget", "widget"]⟩ : TempLink).weight ≤ l2.weight →
      confidence (⟨"B", 2, "improves", ["gadget", "widget"]⟩ : TempLink).weight
          (maxWeightOf [cexNodeA, cexNodeB]) ≤
        confidence l2.weight (maxWeightOf [cexNodeA, cexNodeB]) :=
  confidence_scoring [cexNodeA, cexNodeB] "A"
    [⟨"B", 2, "improves", ["gadget", "widget"]⟩]
    ⟨"B", 2, "improves", ["gadget", "widget"]⟩ (by decide) (by decide)

/-! ## Claim C4 — pruning cap and confidence-sorted lists -/

theorem sorted_insertLinkDesc (a : TempLink) (l : List TempLink)
    (h : l.Sorted (fun x y => y.weight ≤ x.weight)) :
    (insertLinkDesc a l).Sorted (fun x y => y.weight ≤ x.weight) := by
  induction l with
  | nil => simp [insertLinkDesc]
  | cons b l ih =>
    rw [List.sorted_cons] at h
    obtain ⟨hb, hl⟩ := h
    unfold insertLinkDesc
    by_cases hc : b.weight ≤ a.weight
    · rw [if_pos hc, List.sorted_cons]
      refine ⟨?_, List.sorted_cons.mpr ⟨hb, hl⟩⟩
      intro y hy
      rcases List.mem_cons.mp hy with rfl | hy2
      · exact hc
      · exact Nat.le_trans (hb y hy2) hc
    · rw [if_neg hc, List.sorted_cons]
      refine ⟨?_, ih hl⟩
      intro y hy
      rcases (mem_insertLinkDesc _).mp hy with rfl | hy2
      · exact Nat.le_of_not_le hc
      · exact hb y hy2

theorem sorted_sortLinksDesc (l : List TempLink) :
    (sortLinksDesc l).Sorted (fun x y => y.weight ≤ x.weight) := by
  induction l with
  | nil => simp [sortLinksDesc]
  | cons a l ih => exact sorted_insertLinkDesc a (sortLinksDesc l) ih

/-- Claim C4: every per-node link list of the final index has length at
most `MAX_LINKS_PER_NODE` (= 7) and is sorted by non-increasing
confidence. -/
theorem pruning_cap (allNodes : List Node) (u : String) (ls : List TempLink)
    (h : (u, ls) ∈ generateCrossReferences allNodes) :
    ls.length ≤ MAX_LINKS_PER_NODE ∧
    ls.Sorted (fun x y =>
      confidence y.weight (maxWeightOf allNodes) ≤
        confidence x.weight (maxWeightOf allNodes)) := by
  rcases mem_generateCrossReferences h with ⟨ls0, _, rfl⟩
  constructor
  · rw [List.length_take]
    exact min_le_left _ _
  · have hs := sorted_sortLinksDesc ls0
    have hst : ((sortLinksDesc ls0).take MAX_LINKS_PER_NODE).Sorted
        (fun x y => y.weight ≤ x.weight) :=
      List.Pairwise.sublist (List.take_sublist _ _) hs
    exact hst.imp (fun hab => confidence_mono hab)

/-- Witness for `pruning_cap` on the two-node corpus. -/
theorem pruning_cap_witness :
    ([⟨"B", 2, "improves", ["gadget", "widget"]⟩] : List TempLink).length ≤
      MAX_LINKS_PER_NODE ∧
    ([⟨"B", 2, "improves", ["gadget", "widget"]⟩] : List TempLink).Sorted
      (fun x y =>
        confidence y.weight (maxWeightOf [cexNodeA, cexNodeB]) ≤
          confidence x.weight (maxWeightOf [cexNodeA, cexNodeB])) :=
  pruning_cap [cexNodeA, cexNodeB] "A"
    [⟨"B", 2, "improves", ["gadget", "widget"]⟩] (by decide)

/-! ## Claims C8/C10 — breadth-first subtree collection -/

theorem mem_childrenOf {store : List Node} {v : String} {nd : Node} :
    nd ∈ childrenOf store v ↔ nd ∈ store ∧ nd.parentId = some v := by
  unfold childrenOf
  rw [List.mem_filter]
  constructor
  · rintro ⟨h1, h2⟩
    exact ⟨h1, beq_iff_eq.mp h2⟩
  · rintro ⟨h1, h2⟩
    exact ⟨h1, beq_iff_eq.mpr h2⟩

/-- Visiting a fresh id removes exactly its children from the pending
count. -/
theorem remCount_step (store : List Node) (visited : List String) (v : String)
    (hv : v ∉ visited) :
    remCount store (visited ++ [v]) + (childrenOf store v).length =
      remCount store visited := by
  unfold remCount childrenOf
  rw [← List.countP_eq_length_filter]
  induction store with
  | nil => simp
  | cons nd rest ih =>
    rw [List.countP_cons, List.countP_cons, List.countP_cons]
    rcases hnd : nd.parentId with _ | p
    · simp only [hnd]
      simp at ih ⊢
      omega
    · by_cases hp : p = v
      · subst hp
        simp only [hnd]
        simp [hv] at ih ⊢
        omega
      · simp only [hnd]
        simp [hp] at ih ⊢
        omega

/-- Combined invariant run of the collection loop: with enough fuel the
loop returns, and the returned visited set is exactly the set of ids
reachable from the start id through stored parent references. -/
theorem collectLoop_spec (store : List Node) (x : String) :
    ∀ (fuel : Nat) (queue : List String) (head : Nat) (visited : List String),
      (queue.length - head) + remCount store visited < fuel →
      x ∈ queue →
      (∀ q ∈ queue, Reach store x q) →
      (∀ q ∈ queue.take head, q ∈ visited) →
      (∀ v ∈ visited, ∀ nd ∈ store, nd.parentId = some v → nd.id ∈ queue) →
      (∀ v ∈ visited, Reach store x v) →
      ∃ vs, collectLoop store fuel queue head visited = some vs ∧
        (∀ y ∈ vs, Reach store x y) ∧
        (∀ y, Reach store x y → y ∈ vs) := by
  intro fuel
  induction fuel with
  | zero =>
    intro queue head visited hm
    omega
  | succ fuel ih =>
    intro queue head visited hm hx hreach htake hchild hvis
    by_cases h : head < queue.length
    · have hcl : collectLoop store (fuel + 1) queue head visited =
          (if queue.get ⟨head, h⟩ ∈ visited then
            collectLoop store fuel queue (head + 1) visited
          else
            collectLoop store fuel
              (queue ++ (childrenOf store (queue.get ⟨head, h⟩)).map (fun nd => nd.id))
              (head + 1) (visited ++ [queue.get ⟨head, h⟩])) := by
        simp only [collectLoop]
        rw [dif_pos h]
      set c := queue.get ⟨head, h⟩ with hc
      have hcq : c ∈ queue := by
        rw [hc]
        exact List.get_mem queue head h
      have htake1 : queue.take (head + 1) = queue.take head ++ [c] := by
        rw [List.take_succ]
        congr 1
        rw [List.getElem?_eq_getElem h]
        simp [hc]
      by_cases hcv : c ∈ visited
      · rw [hcl, if_pos hcv]
        apply ih queue (head + 1) visited
        · omega
        · exact hx
        · exact hreach
        · intro q hq
          rw [htake1] at hq
          rcases List.mem_append.mp hq with hq1 | hq2
          · exact htake q hq1
          · rcases List.mem_singleton.mp hq2 with rfl
            exact hcv
        · exact hchild
        · exact hvis
      · rw [hcl, if_neg hcv]
        have hrc : Reach store x c := hreach c hcq
        have hstep := remCount_step store visited c hcv
        apply ih _ (head + 1) (visited ++ [c])
        · rw [List.length_append, List.length_map]
          omega
        · exact List.mem_append_left _ hx
        · intro q hq
          rcases List.mem_append.mp hq with hq1 | hq2
          · exact hreach q hq1
          · rcases List.mem_map.mp hq2 with ⟨nd, hnd, rfl⟩
            rcases mem_childrenOf.mp hnd with ⟨hnd1, hnd2⟩
            exact Reach.child hrc hnd1 hnd2
        · intro q hq
          have hq' : q ∈ queue.take (head + 1) := by
            rwa [List.take_append_of_le_length (by omega)] at hq
          rw [htake1] at hq'
          rcases List.mem_append.mp hq' with hq1 | hq2
          · exact List.mem_append_left _ (htake q hq1)
          · rcases List.mem_singleton.mp hq2 with rfl
            exact List.mem_append_right _ (by simp)
        · intro v hv nd hnd hp
          rcases List.mem_append.mp hv with hv1 | hv2
          · exact List.mem_append_left _ (hchild v hv1 nd hnd hp)
          · rcases List.mem_singleton.mp hv2 with rfl
            refine List.mem_append_right _ ?_
            exact List.mem_map.mpr ⟨nd, mem_childrenOf.mpr ⟨hnd, hp⟩, rfl⟩
        · intro v hv
          rcases List.mem_append.mp hv with hv1 | hv2
          · exact hvis v hv1
          · rcases List.mem_singleton.mp hv2 with rfl
            exact hrc
    · have hcl : collectLoop store (fuel + 1) queue head visited = some visited := by
        simp only [collectLoop]
        rw [dif_neg h]
      refine ⟨visited, hcl, hvis, ?_⟩
      have hqv : ∀ q ∈ queue, q ∈ visited := by
        intro q hq
        apply htake
        rwa [List.take_of_length_le (by omega)]
      intro y hy
      induction hy with
      | refl => exact hqv x hx
      | child hr hnd hp ihy => exact hqv _ (hchild _ ihy _ hnd hp)

/-- Claim C10: the breadth-first collection loop of
`deleteNodeAndChildren` terminates on every finite store — even when the
stored `parentId` references form a cycle — within `store.length + 2`
iterations, because an id enters the visited set at most once before its
children are enqueued. -/
theorem collect_terminates (store : List Node) (nodeId : String) :
    (collectLoop store (store.length + 2) [nodeId] 0 []).isSome = true := by
  have hrem : remCount store [] ≤ store.length := by
    unfold remCount
    exact List.countP_le_length _
  obtain ⟨vs, hvs, -, -⟩ := collectLoop_spec store nodeId (store.length + 2)
    [nodeId] 0 []
    (by simp only [List.length_singleton]; omega)
    (List.mem_singleton.mpr rfl)
    (by intro q hq; rcases List.mem_singleton.mp hq with rfl; exact Reach.refl)
    (by intro q hq; simp at hq)
    (by intro v hv; simp at hv)
    (by intro v hv; simp at hv)
  rw [hvs]
  rfl

/-- Claim C8, amended: `deleteNodeAndChildren store X` removes exactly the
stored nodes whose id lies in `{X} ∪ transitive-children(X)` (the ids
reachable from `X` through stored parent references) and no other node,
preserving the order of the remainder; when `X` is absent from the store
*and no stored node references `X` as its parent*, the operation is a
no-op that deletes nothing.  (Without the extra condition the claim fails:
orphan children of an absent id are still collected and deleted, see the
counterexample.) -/
theorem reach_eq_of_unreferenced {store : List Node} {nodeId y : String}
    (href : ∀ nd ∈ store, nd.parentId ≠ some nodeId)
    (hr : Reach store nodeId y) : y = nodeId := by
  induction hr with
  | refl => rfl
  | child hr hnd hp ihy => exact absurd (ihy ▸ hp) (href _ hnd)

theorem delete_subtree_amended (store : List Node) (nodeId : String) :
    (∀ nd, nd ∈ deleteNodeAndChildren store nodeId ↔
      (nd ∈ store ∧ ¬ Reach store nodeId nd.id)) ∧
    List.Sublist (deleteNodeAndChildren store nodeId) store ∧
    ((nodeId ∉ store.map (fun nd => nd.id) ∧
      (∀ nd ∈ store, nd.parentId ≠ some nodeId)) →
      deleteNodeAndChildren store nodeId = store) := by
  have hrem : remCount store [] ≤ store.length := by
    unfold remCount
    exact List.countP_le_length _
  obtain ⟨vs, hvs, hsound, hcomp⟩ := collectLoop_spec store nodeId
    (store.length + 2) [nodeId] 0 []
    (by simp only [List.length_singleton]; omega)
    (List.mem_singleton.mpr rfl)
    (by intro q hq; rcases List.mem_singleton.mp hq with rfl; exact Reach.refl)
    (by intro q hq; simp at hq)
    (by intro v hv; simp at hv)
    (by intro v hv; simp at hv)
  have hdel : deleteNodeAndChildren store nodeId =
      store.filter (fun nd => !(vs.contains nd.id)) := by
    unfold deleteNodeAndChildren
    rw [hvs]
  have hmemvs : ∀ y, y ∈ vs ↔ Reach store nodeId y :=
    fun y => ⟨hsound y, hcomp y⟩
  refine ⟨?_, ?_, ?_⟩
  · intro nd
    rw [hdel, List.mem_filter]
    constructor
    · rintro ⟨h1, h2⟩
      refine ⟨h1, fun hr => ?_⟩
      have : nd.id ∈ vs := (hmemvs nd.id).mpr hr
      simp [List.contains, List.elem_eq_mem, this] at h2
    · rintro ⟨h1, h2⟩
      refine ⟨h1, ?_⟩
      have : nd.id ∉ vs := fun hin => h2 ((hmemvs nd.id).mp hin)
      simp [List.contains, List.elem_eq_mem, this]
  · rw [hdel]
    exact List.filter_sublist _
  · rintro ⟨habs, href⟩
    rw [hdel]
    apply List.filter_eq_self.mpr
    intro nd hnd
    have hnr : ¬ Reach store nodeId nd.id := by
      intro hr
      exact habs (List.mem_map.mpr ⟨nd, hnd, reach_eq_of_unreferenced href hr⟩)
    have : nd.id ∉ vs := fun hin => hnr ((hmemvs nd.id).mp hin)
    simp [List.contains, List.elem_eq_mem, this]

/-- Witness for `delete_subtree_amended`: deleting the absent, unreferenced
id `"Z"` from the orphan store is a no-op. -/
theorem delete_subtree_witness :
    deleteNodeAndChildren [orphanNode] "Z" = [orphanNode] :=
  (delete_subtree_amended [orphanNode] "Z").2.2 ⟨by decide, by decide⟩

/-! ## Claim C2 — reparent/drop rejection -/

/-- With duplicate-free ids, `find?` by a stored node's id returns that
node. -/
theorem find_by_id : ∀ (store : List Node),
    (store.map (fun nd => nd.id)).Nodup →
    ∀ {nd : Node}, nd ∈ store → store.find? (fun x => x.id == nd.id) = some nd
  | [], _, _, hnd => by simp at hnd
  | hd :: rest, hids, nd, hnd => by
    rw [List.map_cons, List.nodup_cons] at hids
    obtain ⟨hni, hrest⟩ := hids
    rcases List.mem_cons.mp hnd with rfl | hmem
    · exact List.find?_cons_of_pos _ (by simp)
    · have hne : (hd.id == nd.id) = false := by
        apply beq_eq_false_iff_ne.mpr
        intro hc
        apply hni
        rw [hc]
        exact List.mem_map.mpr ⟨nd, hmem, rfl⟩
      rw [List.find?_cons_of_neg _ (by simp [hne])]
      exact find_by_id rest hrest hmem

/-- From any element of a chain back to its head by the reflexive
transitive closure. -/
theorem chain_rtg_of_mem {r : String → String → Prop} :
    ∀ (l : List String) (b : String), List.Chain r b l → ∀ {x}, x ∈ b :: l →
      Relation.ReflTransGen r b x
  | [], _, _, x, hx => by
    rcases List.mem_singleton.mp hx with rfl
    exact Relation.ReflTransGen.refl
  | c :: l, b, hc, x, hx => by
    rcases List.chain_cons.mp hc with ⟨hbc, hc'⟩
    rcases List.mem_cons.mp hx with rfl | hx2
    · exact Relation.ReflTransGen.refl
    · exact Relation.ReflTransGen.head hbc (chain_rtg_of_mem l c hc' hx2)

/-- A chain of an acyclic relation never repeats an element. -/
theorem chain_nodup {r : String → String → Prop} :
    ∀ (l : List String) (a : String), List.Chain r a l →
      (∀ c, ¬ Relation.TransGen r c c) → (a :: l).Nodup
  | [], a, _, _ => List.nodup_singleton a
  | b :: l, a, hc, hacyc => by
    rcases List.chain_cons.mp hc with ⟨hab, hc'⟩
    rw [List.nodup_cons]
    refine ⟨?_, chain_nodup l b hc' hacyc⟩
    intro hmem
    exact hacyc a (Relation.TransGen.head' hab (chain_rtg_of_mem l b hc' hmem))

/-- Every element of a parent chain except possibly the last is a stored
id. -/
theorem chain_sub_ids (store : List Node) :
    ∀ (l : List String) (a : String), List.Chain (ParentStep store) a l →
      ∀ x ∈ (a :: l).dropLast, x ∈ store.map (fun nd => nd.id)
  | [], _, _, x, hx => by simp at hx
  | b :: l, a, hc, x, hx => by
    rcases List.chain_cons.mp hc with ⟨hab, hc'⟩
    rw [List.dropLast_cons₂] at hx
    rcases List.mem_cons.mp hx with rfl | hx2
    · obtain ⟨nd, hnd, hid, _⟩ := hab
      exact List.mem_map.mpr ⟨nd, hnd, hid⟩
    · exact chain_sub_ids store l b hc' x hx2

/-- The ancestor walk of `handleDrop` follows a concrete parent chain to
`sourceId`, one node per fuel unit. -/
theorem walk_follows (store : List Node) (sourceId : String)
    (hids : (store.map (fun nd => nd.id)).Nodup)
    (hid0 : ∀ nd ∈ store, nd.id ≠ "") (hsrc : sourceId ≠ "") :
    ∀ (l : List String) (a : String) (fuel : Nat), l.length + 1 ≤ fuel →
      List.Chain (ParentStep store) a l →
      List.getLast (a :: l) (List.cons_ne_nil a l) = sourceId →
      ancestorWalk store sourceId fuel (some a) = true
  | _, _, 0, hfuel, _, _ => by omega
  | [], a, fuel + 1, _, _, hlast => by
    have ha : a = sourceId := by simpa using hlast
    subst ha
    have h1 : (a == "") = false := beq_eq_false_iff_ne.mpr hsrc
    simp [ancestorWalk, h1]
  | b :: l, a, fuel + 1, hfuel, hchain, hlast => by
    rcases List.chain_cons.mp hchain with ⟨hstep, hchain'⟩
    obtain ⟨nd, hnd, hnida, hndp⟩ := hstep
    have ha0 : a ≠ "" := hnida ▸ hid0 nd hnd
    have h1 : (a == "") = false := beq_eq_false_iff_ne.mpr ha0
    by_cases hasrc : a = sourceId
    · subst hasrc
      simp [ancestorWalk, h1]
    · have h2 : (a == sourceId) = false := beq_eq_false_iff_ne.mpr hasrc
      have hfind : store.find? (fun x => x.id == a) = some nd := by
        rw [← hnida]
        exact find_by_id store hids hnd
      rw [List.getLast_cons_cons] at hlast
      simp [ancestorWalk, h1, h2, hfind, hndp]
      exact walk_follows store sourceId hids hid0 hsrc l b fuel
        (by simp at hfuel; omega) hchain' hlast

/-- On forest data (unique non-empty ids, acyclic parent references), the
guard's ancestor walk with fuel `store.length + 1` finds `sourceId`
whenever the start id reaches it through parent references. -/
theorem ancestorWalk_complete (store : List Node) (sourceId : String)
    (hids : (store.map (fun nd => nd.id)).Nodup)
    (hid0 : ∀ nd ∈ store, nd.id ≠ "")
    (hacyc : ∀ c, ¬ Relation.TransGen (ParentStep store) c c)
    (hsrc : sourceId ≠ "") {a : String}
    (hr : Relation.ReflTransGen (ParentStep store) a sourceId) :
    ancestorWalk store sourceId (store.length + 1) (some a) = true := by
  obtain ⟨l, hchain, hlast⟩ := List.exists_chain_of_relationReflTransGen hr
  have hnodup : (a :: l).Nodup := chain_nodup l a hchain hacyc
  have hsub : ∀ x ∈ (a :: l).dropLast, x ∈ store.map (fun nd => nd.id) :=
    chain_sub_ids store l a hchain
  have hlen : l.length ≤ store.length := by
    have hdnodup : ((a :: l).dropLast).Nodup :=
      List.Nodup.sublist (List.dropLast_sublist _) hnodup
    have hle := List.Subperm.length_le (List.subperm_of_subset hdnodup hsub)
    simpa using hle
  exact walk_follows store sourceId hids hid0 hsrc l a (store.length + 1)
    (by omega) hchain hlast

/-- Claim C2: on every forest state (duplicate-free non-empty ids, acyclic
parent references), a drop request whose computed new parent equals the
dragged node itself or lies within its descendant set is rejected by the
guard of `handleDrop` — the walk from the drop target meets `sourceId` —
and the store is returned unchanged: every node's parent id and sort order
are left exactly as they were. -/
theorem reparent_rejection (store : List Node) (sourceId : String) (node : Node)
    (dropIndicator : Option DropIndicator) (p : String)
    (hids : (store.map (fun nd => nd.id)).Nodup)
    (hid0 : ∀ nd ∈ store, nd.id ≠ "")
    (hacyc : ∀ c, ¬ Relation.TransGen (ParentStep store) c c)
    (hsrc : sourceId ≠ "")
    (hnode : node ∈ store)
    (hpar : dropNewParent node dropIndicator = some p)
    (hcond : p = sourceId ∨ Relation.TransGen (ParentStep store) p sourceId) :
    handleDrop store sourceId node dropIndicator = store := by
  have hrtg : Relation.ReflTransGen (ParentStep store) node.id sourceId := by
    by_cases hind : dropIndicator = some DropIndicator.onto
    · rw [hind] at hpar
      simp only [dropNewParent, Option.some.injEq] at hpar
      subst hpar
      rcases hcond with h | h
      · rw [h]
      · exact h.to_reflTransGen
    · have hppar : node.parentId = some p := by
        rw [← hpar]
        rcases dropIndicator with _ | ind
        · rfl
        · cases ind
          · rfl
          · rfl
          · exact absurd rfl hind
      have hstep : ParentStep store node.id p := ⟨node, hnode, rfl, hppar⟩
      rcases hcond with h | h
      · exact Relation.ReflTransGen.single (h ▸ hstep)
      · exact (Relation.TransGen.head hstep h).to_reflTransGen
  have hwalk := ancestorWalk_complete store sourceId hids hid0 hacyc hsrc hrtg
  simp only [handleDrop]
  rw [if_pos hwalk]

/-- Acyclicity from a strictly decreasing rank. -/
theorem acyclic_of_rank {store : List Node} (f : String → Nat)
    (hf : ∀ a b, ParentStep store a b → f b < f a) :
    ∀ c, ¬ Relation.TransGen (ParentStep store) c c := by
  have hlt : ∀ {a b}, Relation.TransGen (ParentStep store) a b → f b < f a := by
    intro a b h
    induction h with
    | single h1 => exact hf _ _ h1
    | tail _ h2 ih => exact Nat.lt_trans (hf _ _ h2) ih
  exact fun c hc => Nat.lt_irrefl _ (hlt hc)

/-- Witness for `reparent_rejection`: dropping the root `"P"` onto its own
child `"Q"` is rejected and leaves the two-node store unchanged. -/
theorem reparent_rejection_witness :
    handleDrop [witParent, witChild] "P" witChild (some DropIndicator.onto) =
      [witParent, witChild] := by
  apply reparent_rejection [witParent, witChild] "P" witChild
    (some DropIndicator.onto) "Q"
  · decide
  · decide
  · apply acyclic_of_rank (fun s => if s = "Q" then 1 else 0)
    rintro a b ⟨nd, hnd, rfl, hp⟩
    rcases List.mem_cons.mp hnd with rfl | hnd2
    · simp [witParent] at hp
    · rcases List.mem_singleton.mp hnd2 with rfl
      have hb : b = "P" := by simpa [witChild] using hp.symm
      subst hb
      decide
  · decide
  · decide
  · decide
  · exact Or.inr (Relation.TransGen.single ⟨witChild, by decide, rfl, rfl⟩)

end JanusFoundry
